import Mathlib

/-!
Verification of the state-synchronization and binary-encoding layer of
`src/vt-avt/rust/src/lib.rs`: varint codec, pen codec, run encoder,
snapshot codec and dirty tracking.

The external terminal-emulation engine (`avt::Vt`) is an opaque
collaborator consumed through the narrow interface `feed`, `lines`,
`cursor`, `size`; it is embedded here as an abstract engine record
`VtEngine`, so every theorem below holds for an arbitrary engine.
Companion decoders (the repository itself only encodes) are modelled
from the spec's wire-format description and named `decode...`.
-/

namespace VtAvt

/-! ## Data model: colors, pens, cells, lines, cursor, engine interface -/

/-- A cell color, mirroring `avt::Color`: `Indexed(u8)` or `RGB(u8,u8,u8)`.
Byte components are modelled as `Nat` values (the source stores `u8`). -/
inductive Color where
  | Indexed : Nat → Color
  | RGB : Nat → Nat → Nat → Color
deriving DecidableEq, Repr

/-- A cell's visual attributes, mirroring the fields of `avt::Pen` read by
`encode_pen`: optional foreground/background colors and six boolean flags. -/
structure Pen where
  foreground : Option Color
  background : Option Color
  is_bold : Bool
  is_italic : Bool
  is_underline : Bool
  is_strikethrough : Bool
  is_blink : Bool
  is_inverse : Bool
deriving DecidableEq, Repr

instance : Inhabited Pen :=
  ⟨⟨none, none, false, false, false, false, false, false⟩⟩

/-- A screen cell: a character and its pen (`avt` cell interface
`char()` / `pen()`). -/
structure Cell where
  char : Char
  pen : Pen
deriving DecidableEq, Repr

/-- A screen line; `avt::Line` is consumed only through `cells()`. -/
structure Line where
  cells : List Cell
deriving DecidableEq, Repr

/-- Cursor state as read from the engine: `cursor().col/.row/.visible`. -/
structure Cursor where
  col : Nat
  row : Nat
  visible : Bool
deriving DecidableEq, Repr

/-- Abstract interface of the external terminal engine `avt::Vt`,
exactly the operations `lib.rs` invokes on it: `Vt::builder().size(c,r).build()`,
`feed(char)`, `feed_str(&str)`, `lines()`, `cursor()`, `size()`.
The engine is not part of this repository, so its behaviour is left abstract. -/
structure VtEngine (V : Type) where
  build : Nat → Nat → V
  feed : V → Char → V
  feed_str : V → String → V
  lines : V → List Line
  cursor : V → Cursor
  size : V → Nat × Nat

/-! ## Varint codec

`write_varint` embeds the encoder of `lib.rs` lines 111-123: a loop taking
7 low value bits per byte (`value & 0x7F`), shifting (`value >>= 7`) and
setting the continuation bit `0x80` on every byte except the last. -/

/-- The byte sequence the `write_varint` loop pushes for `value`
(the loop body, without the accumulating buffer). -/
def varintBytes (value : Nat) : List Nat :=
  if h : value >>> 7 = 0 then [value &&& 0x7F]
  else ((value &&& 0x7F) ||| 0x80) :: varintBytes (value >>> 7)
termination_by value
decreasing_by
  have hd : value >>> 7 = value / 128 := Nat.shiftRight_eq_div_pow value 7
  omega

/-- Embeds `write_varint(buf, value)` of `lib.rs`: appends the little-endian
base-128 encoding of `value` to `buf`. -/
def write_varint (buf : List Nat) (value : Nat) : List Nat :=
  if h : value >>> 7 = 0 then buf ++ [value &&& 0x7F]
  else write_varint (buf ++ [(value &&& 0x7F) ||| 0x80]) (value >>> 7)
termination_by value
decreasing_by
  have hd : value >>> 7 = value / 128 := Nat.shiftRight_eq_div_pow value 7
  omega

/-- Modelled from the spec: the companion varint decoder ("Decoding consumes
bytes until one with the high bit clear"; 7 value bits per byte,
little-endian). The repository contains no decoder; tests/consumers do. -/
def decodeVarint : List Nat → Option (Nat × List Nat)
  | [] => none
  | b :: rest =>
    if b < 128 then some (b, rest)
    else
      match decodeVarint rest with
      | none => none
      | some (n, rem) => some (b % 128 + 128 * n, rem)

lemma and_0x7F_eq_mod (x : Nat) : x &&& 0x7F = x % 128 :=
  Nat.and_pow_two_sub_one_eq_mod x 7

lemma shiftRight_7_eq_div (x : Nat) : x >>> 7 = x / 128 :=
  Nat.shiftRight_eq_div_pow x 7

lemma lor_0x80_of_lt : ∀ x < 128, x ||| 0x80 = x + 128 := by decide

/-- One-step arithmetic form of `varintBytes`. -/
lemma varintBytes_eq (value : Nat) :
    varintBytes value =
      if value / 128 = 0 then [value % 128]
      else (value % 128 + 128) :: varintBytes (value / 128) := by
  rw [varintBytes]
  rcases Nat.eq_zero_or_pos value with h0 | _
  · subst h0; simp
  · by_cases h : value / 128 = 0
    · simp [shiftRight_7_eq_div, and_0x7F_eq_mod, h]
    · simp only [shiftRight_7_eq_div, and_0x7F_eq_mod, h, dite_false, if_false,
        dif_neg h]
      rw [lor_0x80_of_lt (value % 128) (Nat.mod_lt _ (by omega))]

/-- `write_varint` appends exactly the loop's byte sequence. -/
lemma write_varint_eq_append (buf : List Nat) (value : Nat) :
    write_varint buf value = buf ++ varintBytes value := by
  induction value using Nat.strong_induction_on generalizing buf with
  | _ value ih =>
    rw [write_varint, varintBytes]
    by_cases h : value >>> 7 = 0
    · simp [h]
    · have hd : value >>> 7 = value / 128 := shiftRight_7_eq_div value
      have hlt : value >>> 7 < value := by omega
      simp only [dif_neg h]
      rw [ih _ hlt, List.append_assoc, List.singleton_append]

/-- Round-trip: decoding the encoder's bytes, followed by any suffix,
recovers the value and the suffix. -/
lemma decodeVarint_varintBytes (n : Nat) (rest : List Nat) :
    decodeVarint (varintBytes n ++ rest) = some (n, rest) := by
  induction n using Nat.strong_induction_on generalizing rest with
  | _ n ih =>
    rw [varintBytes_eq]
    by_cases h : n / 128 = 0
    · have hn : n < 128 := by omega
      simp [h, decodeVarint, Nat.mod_eq_of_lt hn, hn]
    · have hlt : n / 128 < n := by omega
      have hmod : ¬ (n % 128 + 128 < 128) := by omega
      simp only [h, if_false, List.cons_append, decodeVarint, hmod,
        ih _ hlt rest]
      have : (n % 128 + 128) % 128 = n % 128 := by omega
      rw [this]
      congr 1
      ext
      · omega
      · rfl

/-- Minimality: any byte string the decoder accepts for `n` is at least as
long as the encoder's output for `n` (counting only the consumed prefix). -/
lemma varintBytes_length_minimal :
    ∀ (bs : List Nat) (n : Nat) (rest : List Nat),
      decodeVarint bs = some (n, rest) →
      (varintBytes n).length + rest.length ≤ bs.length := by
  intro bs
  induction bs with
  | nil => intro n rest h; simp [decodeVarint] at h
  | cons b tail ih =>
    intro n rest h
    rw [decodeVarint] at h
    by_cases hb : b < 128
    · simp only [hb, if_true, Option.some.injEq, Prod.mk.injEq] at h
      obtain ⟨rfl, rfl⟩ := h
      have : b / 128 = 0 := by omega
      rw [varintBytes_eq, if_pos this]
      simp
      omega
    · simp only [hb, if_false] at h
      cases hdec : decodeVarint tail with
      | none => rw [hdec] at h; simp at h
      | some p =>
        obtain ⟨m, rem⟩ := p
        rw [hdec] at h
        simp only [Option.some.injEq, Prod.mk.injEq] at h
        obtain ⟨rfl, rfl⟩ := h
        have ihm := ih m rem hdec
        have hdiv : (b % 128 + 128 * m) / 128 = m := by omega
        have hmod : (b % 128 + 128 * m) % 128 = b % 128 := by omega
        rw [varintBytes_eq, hdiv, hmod]
        by_cases hm : m = 0
        · subst hm
          rw [varintBytes_eq] at ihm
          simp at ihm ⊢
          omega
        · rw [if_neg hm]
          simp only [List.length_cons]
          omega

/-- All bytes emitted by the encoder are in fact bytes (< 256, with the
continuation bit as described). -/
lemma varintBytes_lt_256 (n : Nat) : ∀ b ∈ varintBytes n, b < 256 := by
  induction n using Nat.strong_induction_on with
  | _ n ih =>
    rw [varintBytes_eq]
    by_cases h : n / 128 = 0
    · simp only [h, if_true, List.mem_singleton]
      rintro b rfl; omega
    · simp only [h, if_false, List.mem_cons]
      rintro b (rfl | hb)
      · omega
      · exact ih _ (by omega) b hb

/-! ## Pen codec

`encode_pen` embeds `lib.rs` lines 160-204: foreground color, background
color, then one attribute byte assembled with `|=` from six flag bits. -/

/-- The attribute byte built by the `attrs |= ...` sequence of `encode_pen`
(lines 196-202): bit 0 bold, bit 1 italic, bit 2 underline,
bit 3 strikethrough, bit 4 blink, bit 5 inverse. -/
def attrByte (pen : Pen) : Nat :=
  let attrs : Nat := 0
  let attrs := if pen.is_bold then attrs ||| 0x01 else attrs
  let attrs := if pen.is_italic then attrs ||| 0x02 else attrs
  let attrs := if pen.is_underline then attrs ||| 0x04 else attrs
  let attrs := if pen.is_strikethrough then attrs ||| 0x08 else attrs
  let attrs := if pen.is_blink then attrs ||| 0x10 else attrs
  let attrs := if pen.is_inverse then attrs ||| 0x20 else attrs
  attrs

/-- Embeds `encode_pen(buf, pen)` of `lib.rs`: tagged foreground bytes,
tagged background bytes, then the attribute byte, pushed onto `buf`. -/
def encode_pen (buf : List Nat) (pen : Pen) : List Nat :=
  let buf :=
    match pen.foreground with
    | some (Color.Indexed idx) => buf ++ [0, idx]
    | some (Color.RGB r g b) => buf ++ [1, r, g, b]
    | none => buf ++ [2]
  let buf :=
    match pen.background with
    | some (Color.Indexed idx) => buf ++ [0, idx]
    | some (Color.RGB r g b) => buf ++ [1, r, g, b]
    | none => buf ++ [2]
  buf ++ [attrByte pen]

/-- Modelled from the spec: companion decoder for one tagged color
(tag 0 + index, tag 1 + three components, tag 2 alone; any other tag is
the `UnsupportedColorTag` failure, returned as `none`). -/
def decodeColor : List Nat → Option (Option Color × List Nat)
  | 0 :: idx :: rest => some (some (Color.Indexed idx), rest)
  | 1 :: r :: g :: b :: rest => some (some (Color.RGB r g b), rest)
  | 2 :: rest => some (none, rest)
  | _ => none

/-- Modelled from the spec: companion decoder for a whole pen
(foreground, background, attribute byte read bit by bit). -/
def decodePen : List Nat → Option (Pen × List Nat)
  | bs =>
    match decodeColor bs with
    | none => none
    | some (fg, bs) =>
      match decodeColor bs with
      | none => none
      | some (bg, bs) =>
        match bs with
        | [] => none
        | attrs :: rest =>
          some (⟨fg, bg, attrs.testBit 0, attrs.testBit 1, attrs.testBit 2,
                 attrs.testBit 3, attrs.testBit 4, attrs.testBit 5⟩, rest)

/-- The attribute byte is the sum of the six disjoint flag bits. -/
lemma attrByte_eq_sum (pen : Pen) :
    attrByte pen =
      (if pen.is_bold then 1 else 0) + (if pen.is_italic then 2 else 0) +
      (if pen.is_underline then 4 else 0) +
      (if pen.is_strikethrough then 8 else 0) +
      (if pen.is_blink then 16 else 0) +
      (if pen.is_inverse then 32 else 0) := by
  obtain ⟨fg, bg, b, i, u, s, bl, inv⟩ := pen
  cases b <;> cases i <;> cases u <;> cases s <;> cases bl <;> cases inv <;>
    simp [attrByte] <;> decide

/-- Bits 6 and 7 of the attribute byte are always zero. -/
lemma attrByte_lt_64 (pen : Pen) : attrByte pen < 64 := by
  rw [attrByte_eq_sum]
  split_ifs <;> omega

/-- Reading the attribute byte back bit by bit recovers the six flags. -/
lemma attrByte_testBit (pen : Pen) :
    (attrByte pen).testBit 0 = pen.is_bold ∧
    (attrByte pen).testBit 1 = pen.is_italic ∧
    (attrByte pen).testBit 2 = pen.is_underline ∧
    (attrByte pen).testBit 3 = pen.is_strikethrough ∧
    (attrByte pen).testBit 4 = pen.is_blink ∧
    (attrByte pen).testBit 5 = pen.is_inverse := by
  obtain ⟨fg, bg, b, i, u, s, bl, inv⟩ := pen
  cases b <;> cases i <;> cases u <;> cases s <;> cases bl <;> cases inv <;>
    simp [attrByte] <;> decide

/-- The color bytes `encode_pen` emits for one optional color. -/
def colorBytes : Option Color → List Nat
  | some (Color.Indexed idx) => [0, idx]
  | some (Color.RGB r g b) => [1, r, g, b]
  | none => [2]

/-- `encode_pen` appends foreground bytes, background bytes and the
attribute byte, in that order. -/
lemma encode_pen_eq_append (buf : List Nat) (pen : Pen) :
    encode_pen buf pen =
      buf ++ colorBytes pen.foreground ++ colorBytes pen.background ++
        [attrByte pen] := by
  rcases pen with ⟨fg, bg, b, i, u, s, bl, inv⟩
  rcases fg with _ | idx | ⟨r, g, bb⟩ <;>
    rcases bg with _ | idx₂ | ⟨r₂, g₂, b₂⟩ <;>
    simp [encode_pen, colorBytes]

/-- Decoding the emitted color bytes recovers the color and the suffix. -/
lemma decodeColor_colorBytes (c : Option Color) (rest : List Nat) :
    decodeColor (colorBytes c ++ rest) = some (c, rest) := by
  rcases c with _ | c
  · rfl
  · rcases c with idx | ⟨r, g, b⟩ <;> rfl

/-- Round-trip: decoding the pen encoder's bytes recovers the pen. -/
lemma decodePen_encode_pen (pen : Pen) (rest : List Nat) :
    decodePen (colorBytes pen.foreground ++ (colorBytes pen.background ++
      (attrByte pen :: rest))) = some (pen, rest) := by
  obtain ⟨h0, h1, h2, h3, h4, h5⟩ := attrByte_testBit pen
  simp only [decodePen, decodeColor_colorBytes]
  rcases pen with ⟨fg, bg, b, i, u, s, bl, inv⟩
  simp_all

/-- Injectivity of the pen encoder: equal outputs (over one shared prefix)
come from equal pens. -/
lemma encode_pen_injective (buf : List Nat) (p q : Pen)
    (h : encode_pen buf p = encode_pen buf q) : p = q := by
  rw [encode_pen_eq_append, encode_pen_eq_append] at h
  have hb : colorBytes p.foreground ++ (colorBytes p.background ++
      (attrByte p :: [])) = colorBytes q.foreground ++
      (colorBytes q.background ++ (attrByte q :: [])) := by
    simpa [List.append_assoc] using h
  have hp := decodePen_encode_pen p []
  rw [hb] at hp
  have hpq := (decodePen_encode_pen q []).symm.trans hp
  simp only [Option.some.injEq, Prod.mk.injEq] at hpq
  exact hpq.1.symm

/-! ## UTF-8 text bytes

The source stores each run's text as a Rust `String` and writes
`text.len()` (its UTF-8 byte length) followed by `text.as_bytes()`.
`charBytes` embeds the UTF-8 encoding of one character. -/

/-- The UTF-8 bytes of one character (what `String::as_bytes` contributes
for this character). -/
def charBytes (c : Char) : List Nat :=
  let n := c.toNat
  if n < 0x80 then [n]
  else if n < 0x800 then [0xC0 + n / 64, 0x80 + n % 64]
  else if n < 0x10000 then
    [0xE0 + n / 4096, 0x80 + n / 64 % 64, 0x80 + n % 64]
  else
    [0xF0 + n / 262144, 0x80 + n / 4096 % 64, 0x80 + n / 64 % 64,
     0x80 + n % 64]

/-- UTF-8 bytes of a character sequence (Rust `String::as_bytes`);
its length is Rust `String::len`. -/
def textBytes (cs : List Char) : List Nat :=
  cs.flatMap charBytes

/-- Modelled from the spec: companion decoder for one UTF-8-encoded
character, giving its code point and the unread suffix (`none` on
malformed or truncated input). -/
def decodeUtf8Char (bs : List Nat) : Option (Nat × List Nat) :=
  match bs with
  | [] => none
  | b :: rest =>
    if b < 0x80 then some (b, rest)
    else if b < 0xC0 then none
    else if b < 0xE0 then
      match rest with
      | b1 :: rest₁ =>
        if 0x80 ≤ b1 ∧ b1 < 0xC0 then
          some ((b - 0xC0) * 64 + (b1 - 0x80), rest₁)
        else none
      | _ => none
    else if b < 0xF0 then
      match rest with
      | b1 :: b2 :: rest₂ =>
        if (0x80 ≤ b1 ∧ b1 < 0xC0) ∧ (0x80 ≤ b2 ∧ b2 < 0xC0) then
          some ((b - 0xE0) * 4096 + (b1 - 0x80) * 64 + (b2 - 0x80), rest₂)
        else none
      | _ => none
    else if b < 0xF8 then
      match rest with
      | b1 :: b2 :: b3 :: rest₃ =>
        if (0x80 ≤ b1 ∧ b1 < 0xC0) ∧ (0x80 ≤ b2 ∧ b2 < 0xC0) ∧
            (0x80 ≤ b3 ∧ b3 < 0xC0) then
          some ((b - 0xF0) * 262144 + (b1 - 0x80) * 4096 +
            (b2 - 0x80) * 64 + (b3 - 0x80), rest₃)
        else none
      | _ => none
    else none

lemma decodeUtf8Char_length (bs : List Nat) (n : Nat) (rest : List Nat)
    (h : decodeUtf8Char bs = some (n, rest)) : rest.length < bs.length := by
  unfold decodeUtf8Char at h
  repeat' split at h
  all_goals simp_all
  all_goals omega

lemma char_toNat_lt (c : Char) : c.toNat < 1114112 := by
  rcases c.valid with h | h
  · exact Nat.lt_trans h (by norm_num)
  · exact h.2

lemma charBytes_ne_nil (c : Char) : charBytes c ≠ [] := by
  simp only [charBytes]
  split_ifs <;> simp

/-- Decoding one encoded character recovers its code point and suffix. -/
lemma decodeUtf8Char_charBytes (c : Char) (rest : List Nat) :
    decodeUtf8Char (charBytes c ++ rest) = some (c.toNat, rest) := by
  have hmax := char_toNat_lt c
  simp only [charBytes]
  by_cases h1 : c.toNat < 0x80
  · simp [h1, decodeUtf8Char]
  · by_cases h2 : c.toNat < 0x800
    · simp only [h1, if_false, h2, if_true, List.cons_append,
        List.nil_append]
      simp only [decodeUtf8Char]
      rw [if_neg (by omega), if_neg (by omega), if_pos (by omega)]
      rw [if_pos (by constructor <;> omega)]
      have : (0xC0 + c.toNat / 64 - 0xC0) * 64 + (0x80 + c.toNat % 64 - 0x80)
          = c.toNat := by omega
      rw [this]
    · by_cases h3 : c.toNat < 0x10000
      · simp only [h1, if_false, h2, h3, if_true, List.cons_append,
          List.nil_append]
        simp only [decodeUtf8Char]
        rw [if_neg (by omega), if_neg (by omega), if_neg (by omega),
          if_pos (by omega)]
        rw [if_pos (by refine ⟨⟨?_, ?_⟩, ?_, ?_⟩ <;> omega)]
        have : (0xE0 + c.toNat / 4096 - 0xE0) * 4096 +
            (0x80 + c.toNat / 64 % 64 - 0x80) * 64 +
            (0x80 + c.toNat % 64 - 0x80) = c.toNat := by omega
        rw [this]
      · simp only [h1, if_false, h2, h3, List.cons_append,
          List.nil_append]
        simp only [decodeUtf8Char]
        rw [if_neg (by omega), if_neg (by omega), if_neg (by omega),
          if_neg (by omega), if_pos (by omega)]
        rw [if_pos (by refine ⟨⟨?_, ?_⟩, ⟨?_, ?_⟩, ?_, ?_⟩ <;> omega)]
        have : (0xF0 + c.toNat / 262144 - 0xF0) * 262144 +
            (0x80 + c.toNat / 4096 % 64 - 0x80) * 4096 +
            (0x80 + c.toNat / 64 % 64 - 0x80) * 64 +
            (0x80 + c.toNat % 64 - 0x80) = c.toNat := by omega
        rw [this]

/-- Modelled from the spec: companion decoder turning a complete UTF-8
byte string back into the code points it encodes. -/
def decodeUtf8 (bs : List Nat) : Option (List Nat) :=
  match bs with
  | [] => some []
  | b :: tail =>
    match hdec : decodeUtf8Char (b :: tail) with
    | none => none
    | some (n, rest) =>
      match decodeUtf8 rest with
      | none => none
      | some ns => some (n :: ns)
termination_by bs.length
decreasing_by
  simpa using decodeUtf8Char_length _ _ _ hdec

/-- Decoding the concatenated UTF-8 bytes of a character list yields
exactly its code points. -/
lemma decodeUtf8_textBytes (cs : List Char) :
    decodeUtf8 (textBytes cs) = some (cs.map Char.toNat) := by
  induction cs with
  | nil => simp [textBytes, decodeUtf8]
  | cons c cs ih =>
    have hflat : textBytes (c :: cs) = charBytes c ++ textBytes cs := by
      simp [textBytes]
    rw [hflat]
    obtain ⟨b, bs, hcb⟩ : ∃ b bs, charBytes c = b :: bs := by
      cases hc : charBytes c with
      | nil => exact absurd hc (charBytes_ne_nil c)
      | cons x xs => exact ⟨x, xs, rfl⟩
    rw [hcb, List.cons_append, decodeUtf8]
    have hdec : decodeUtf8Char (b :: (bs ++ textBytes cs))
        = some (c.toNat, textBytes cs) := by
      rw [← List.cons_append, ← hcb]
      exact decodeUtf8Char_charBytes c (textBytes cs)
    rw [hdec]
    simp only [ih]
    simp

/-! ## Run encoder

`encode_line` embeds `lib.rs` lines 125-158: a left-to-right scan over the
row's cells that starts a new run whenever the pen differs from the run in
progress, then serializes run count and runs. -/

/-- One run: `(current_start, current_text, current_pen.unwrap())` as pushed
by `encode_line`. -/
structure Run where
  start_column : Nat
  text : List Char
  pen : Pen
deriving DecidableEq, Repr

/-- The scan state of the `encode_line` loop: the runs pushed so far and
the run in progress (`current_pen`, `current_text`, `current_start`). -/
structure RunState where
  runs : List Run
  current_pen : Option Pen
  current_text : List Char
  current_start : Nat
deriving DecidableEq, Repr

/-- The flush step `runs.push((current_start, current_text.clone(),
current_pen.unwrap())); current_text.clear()`, guarded by
`!current_text.is_empty()`. The loop maintains that `current_pen` is
`some` whenever `current_text` is non-empty, so the default never fires;
`Option.getD` stands for the source's `unwrap()`. -/
def flushRun (st : RunState) : RunState :=
  if st.current_text = [] then st
  else
    { st with
      runs := st.runs ++
        [⟨st.current_start, st.current_text, st.current_pen.getD default⟩],
      current_text := [] }

/-- One iteration of the `for (col, cell) in cells.iter().enumerate()` loop. -/
def runStep (st : RunState) (col : Nat) (cell : Cell) : RunState :=
  let st₁ :=
    if st.current_pen = some cell.pen then st
    else
      { flushRun st with current_pen := some cell.pen, current_start := col }
  { st₁ with current_text := st₁.current_text ++ [cell.char] }

/-- The initial scan state (`runs = vec![]`, `current_pen = None`,
`current_text = String::new()`, `current_start = 0`). -/
def initRunState : RunState := ⟨[], none, [], 0⟩

/-- The run list `encode_line` builds for a row of cells: the enumerate
loop followed by the final flush. -/
def build_runs (cells : List Cell) : List Run :=
  (flushRun (cells.enum.foldl (fun st pc => runStep st pc.1 pc.2)
    initRunState)).runs

/-- Embeds `encode_line(buf, line)`: run count, then per run start column,
text byte length, pen and text bytes. -/
def encode_line (buf : List Nat) (line : Line) : List Nat :=
  let runs := build_runs line.cells
  let buf := write_varint buf runs.length
  runs.foldl (fun buf r =>
    let buf := write_varint buf r.start_column
    let buf := write_varint buf (textBytes r.text).length
    let buf := encode_pen buf r.pen
    buf ++ textBytes r.text) buf

/-- The characters represented by a scan state: flushed runs then the run
in progress. -/
def stateText (st : RunState) : List Char :=
  (st.runs.map Run.text).flatten ++ st.current_text

lemma stateText_flushRun (st : RunState) :
    stateText (flushRun st) = stateText st := by
  unfold flushRun stateText
  split_ifs with h
  · rfl
  · simp

lemma stateText_runStep (st : RunState) (col : Nat) (cell : Cell) :
    stateText (runStep st col cell) = stateText st ++ [cell.char] := by
  unfold runStep
  split_ifs with h
  · simp [stateText]
  · show ((flushRun st).runs.map Run.text).flatten ++
      ((flushRun st).current_text ++ [cell.char]) = stateText st ++ [cell.char]
    rw [← List.append_assoc, ← stateText_flushRun st]
    rfl

lemma stateText_foldl (l : List (Nat × Cell)) (st : RunState) :
    stateText (l.foldl (fun st pc => runStep st pc.1 pc.2) st) =
      stateText st ++ l.map (fun pc => pc.2.char) := by
  induction l generalizing st with
  | nil => simp
  | cons pc l ih =>
    simp only [List.foldl_cons, List.map_cons]
    rw [ih, stateText_runStep]
    simp

/-- Text conservation: concatenating the texts of all emitted runs, in
emitted order, yields the row's original character sequence. -/
lemma build_runs_text (cells : List Cell) :
    ((build_runs cells).map Run.text).flatten = cells.map Cell.char := by
  have h1 : ((flushRun (cells.enum.foldl
      (fun st pc => runStep st pc.1 pc.2) initRunState)).runs.map
        Run.text).flatten =
      stateText (flushRun (cells.enum.foldl
        (fun st pc => runStep st pc.1 pc.2) initRunState)) := by
    unfold flushRun
    split_ifs with h
    · unfold stateText
      rw [h]
      simp
    · simp [stateText]
  rw [build_runs, h1, stateText_flushRun, stateText_foldl]
  have : stateText initRunState = [] := rfl
  rw [this, List.nil_append]
  have : cells.enum.map (fun pc => pc.2.char) = cells.map Cell.char := by
    rw [show (fun (pc : Nat × Cell) => pc.2.char) =
      (Cell.char ∘ Prod.snd) from rfl]
    rw [← List.map_map, List.enum_map_snd]
  rw [this]

/-- The loop invariant of the `encode_line` scan after processing the
first `k` cells of the row. -/
structure ScanInv (k : Nat) (st : RunState) : Prop where
  chain_pen : st.runs.Chain' (fun a b => a.pen ≠ b.pen)
  chain_start : st.runs.Chain' (fun a b => a.start_column < b.start_column)
  start_len : st.current_start + st.current_text.length = k
  empty_init : st.current_text = [] ∨ st.current_pen = none →
    st.runs = [] ∧ st.current_text = [] ∧ st.current_pen = none ∧
      st.current_start = 0 ∧ k = 0
  last_pen : ∀ r ∈ st.runs.getLast?, ∀ p, st.current_pen = some p →
    r.pen ≠ p
  last_start : ∀ r ∈ st.runs.getLast?, r.start_column < st.current_start

lemma scanInv_init : ScanInv 0 initRunState := by
  refine ⟨List.chain'_nil, List.chain'_nil, rfl, ?_, ?_, ?_⟩
  · intro _; exact ⟨rfl, rfl, rfl, rfl, rfl⟩
  · intro r hr; simp [initRunState] at hr
  · intro r hr; simp [initRunState] at hr

lemma scanInv_step (k : Nat) (st : RunState) (cell : Cell)
    (inv : ScanInv k st) : ScanInv (k + 1) (runStep st k cell) := by
  unfold runStep
  by_cases hpen : st.current_pen = some cell.pen
  · rw [if_pos hpen]
    obtain ⟨A, B, C, F, G, H⟩ := inv
    refine ⟨A, B, by simp; omega, ?_, ?_, ?_⟩
    · intro hcase
      rcases hcase with he | hn
      · simp at he
      · simp [hpen] at hn
    · intro r hr p hp
      exact G r hr p hp
    · intro r hr
      exact H r hr
  · rw [if_neg hpen]
    by_cases htext : st.current_text = []
    · obtain ⟨hruns, -, hpen0, hstart, hk⟩ := inv.empty_init (Or.inl htext)
      subst hk
      unfold flushRun
      rw [if_pos htext]
      refine ⟨?_, ?_, ?_, ?_, ?_, ?_⟩
      · simpa [hruns] using List.chain'_nil
      · simpa [hruns] using List.chain'_nil
      · simp [htext]
      · intro hcase
        rcases hcase with he | hn
        · simp [htext] at he
        · simp at hn
      · intro r hr p hp
        simp [hruns] at hr
      · intro r hr
        simp [hruns] at hr
    · have hpen1 : st.current_pen ≠ none := by
        intro h0
        exact htext (inv.empty_init (Or.inr h0)).2.1
      obtain ⟨p, hp⟩ := Option.ne_none_iff_exists'.mp hpen1
      have hpcell : p ≠ cell.pen := by
        intro h; rw [h] at hp; exact hpen hp
      obtain ⟨A, B, C, F, G, H⟩ := inv
      unfold flushRun
      rw [if_neg htext]
      have hgetD : st.current_pen.getD default = p := by rw [hp]; rfl
      have hstartlt : st.current_start < k := by
        have : st.current_text.length ≥ 1 :=
          List.length_pos.mpr htext
        omega
      refine ⟨?_, ?_, ?_, ?_, ?_, ?_⟩
      · simp only []
        rw [List.chain'_append]
        refine ⟨A, List.chain'_singleton _, ?_⟩
        intro x hx y hy
        simp only [List.head?_cons, Option.mem_def, Option.some.injEq]
          at hy
        subst hy
        simp only [hgetD]
        exact G x hx p hp
      · simp only []
        rw [List.chain'_append]
        refine ⟨B, List.chain'_singleton _, ?_⟩
        intro x hx y hy
        simp only [List.head?_cons, Option.mem_def, Option.some.injEq]
          at hy
        subst hy
        exact H x hx
      · simp
      · intro hcase
        rcases hcase with he | hn
        · simp at he
        · simp at hn
      · intro r hr p₂ hp₂
        simp only [List.getLast?_concat, Option.mem_def,
          Option.some.injEq] at hr
        subst hr
        simp only [Option.some.injEq] at hp₂
        subst hp₂
        simpa [hgetD] using hpcell
      · intro r hr
        simp only [List.getLast?_concat, Option.mem_def,
          Option.some.injEq] at hr
        subst hr
        simpa using hstartlt

lemma scanInv_foldl (cells : List Cell) (k : Nat) (st : RunState)
    (inv : ScanInv k st) :
    ScanInv (k + cells.length)
      ((List.enumFrom k cells).foldl (fun st pc => runStep st pc.1 pc.2) st) := by
  induction cells generalizing k st with
  | nil => simpa using inv
  | cons c cs ih =>
    have hEnum : List.enumFrom k (c :: cs) = (k, c) :: List.enumFrom (k + 1) cs :=
      rfl
    rw [hEnum, List.foldl_cons]
    have := ih (k + 1) (runStep st k c) (scanInv_step k st c inv)
    simpa [Nat.add_comm, Nat.add_assoc, Nat.add_left_comm] using this

/-- After the final flush, the emitted run list has pairwise-distinct
adjacent pens and strictly increasing start columns. -/
lemma flushRun_chains (k : Nat) (st : RunState) (inv : ScanInv k st) :
    (flushRun st).runs.Chain' (fun a b => a.pen ≠ b.pen) ∧
    (flushRun st).runs.Chain' (fun a b => a.start_column < b.start_column) := by
  obtain ⟨A, B, C, F, G, H⟩ := inv
  unfold flushRun
  split_ifs with h
  · exact ⟨A, B⟩
  · constructor
    · simp only []
      rw [List.chain'_append]
      refine ⟨A, List.chain'_singleton _, ?_⟩
      intro x hx y hy
      simp only [List.head?_cons, Option.mem_def, Option.some.injEq] at hy
      subst hy
      have hpen1 : st.current_pen ≠ none := by
        intro h0; exact h (F (Or.inr h0)).2.1
      obtain ⟨p, hp⟩ := Option.ne_none_iff_exists'.mp hpen1
      have : st.current_pen.getD default = p := by rw [hp]; rfl
      simp only [this]
      exact G x hx p hp
    · simp only []
      rw [List.chain'_append]
      refine ⟨B, List.chain'_singleton _, ?_⟩
      intro x hx y hy
      simp only [List.head?_cons, Option.mem_def, Option.some.injEq] at hy
      subst hy
      exact H x hx

lemma build_runs_scanInv (cells : List Cell) :
    ∃ k st, ScanInv k st ∧ build_runs cells = (flushRun st).runs := by
  refine ⟨cells.length,
    (List.enumFrom 0 cells).foldl (fun st pc => runStep st pc.1 pc.2)
      initRunState, ?_, ?_⟩
  · simpa using scanInv_foldl cells 0 initRunState scanInv_init
  · rfl

/-- Adjacent emitted runs never share a pen. -/
lemma build_runs_chain_pen (cells : List Cell) :
    (build_runs cells).Chain' (fun a b => a.pen ≠ b.pen) := by
  obtain ⟨k, st, inv, heq⟩ := build_runs_scanInv cells
  rw [heq]
  exact (flushRun_chains k st inv).1

/-- Emitted runs have strictly increasing start columns. -/
lemma build_runs_chain_start (cells : List Cell) :
    (build_runs cells).Chain'
      (fun a b => a.start_column < b.start_column) := by
  obtain ⟨k, st, inv, heq⟩ := build_runs_scanInv cells
  rw [heq]
  exact (flushRun_chains k st inv).2

/-- An empty row yields zero runs. -/
lemma build_runs_nil : build_runs [] = [] := rfl

lemma runStep_uniform (p : Pen) (cs : List Cell)
    (hall : ∀ c ∈ cs, c.pen = p) (k : Nat) (runs : List Run)
    (text : List Char) (start : Nat) :
    (List.enumFrom k cs).foldl (fun st pc => runStep st pc.1 pc.2)
        ⟨runs, some p, text, start⟩ =
      ⟨runs, some p, text ++ cs.map Cell.char, start⟩ := by
  induction cs generalizing k text with
  | nil => simp
  | cons c cs ih =>
    have hc : c.pen = p := hall c (List.mem_cons_self c cs)
    have hEnum : List.enumFrom k (c :: cs) = (k, c) :: List.enumFrom (k + 1) cs :=
      rfl
    rw [hEnum, List.foldl_cons]
    have hstep : runStep ⟨runs, some p, text, start⟩ k c =
        ⟨runs, some p, text ++ [c.char], start⟩ := by
      unfold runStep
      rw [if_pos (by rw [hc])]
    rw [hstep, ih (fun x hx => hall x (List.mem_cons_of_mem c hx)) (k + 1)]
    simp

/-- A row in which every cell carries one pen yields exactly one run,
starting at column 0 and containing the whole row's text. -/
lemma build_runs_uniform (p : Pen) (cells : List Cell)
    (hne : cells ≠ []) (hall : ∀ c ∈ cells, c.pen = p) :
    build_runs cells = [⟨0, cells.map Cell.char, p⟩] := by
  obtain ⟨c, cs, rfl⟩ := List.exists_cons_of_ne_nil hne
  have hc : c.pen = p := hall c (List.mem_cons_self c cs)
  unfold build_runs
  have hEnum : (c :: cs).enum = (0, c) :: List.enumFrom 1 cs := rfl
  rw [hEnum, List.foldl_cons]
  have hstep : runStep initRunState 0 c = ⟨[], some c.pen, [c.char], 0⟩ := by
    unfold runStep flushRun initRunState
    rw [if_neg (by simp), if_pos rfl]
    rfl
  rw [hstep, hc,
    runStep_uniform p cs (fun x hx => hall x (List.mem_cons_of_mem c hx)) 1
      [] [c.char] 0]
  unfold flushRun
  rw [if_neg (by simp)]
  simp

/-! ## Session state and dirty tracking

`AvtState` embeds the struct of `lib.rs` lines 8-13; its operations embed
`new`, `reset`, `resize`, `feed` and `poll_diff` (lines 15-107). The Rust
`HashSet<usize>` of dirty line indices is modelled as a `Finset Nat`. -/

/-- Wrapper around the engine with dirty tracking (`struct AvtState`). -/
structure AvtState (V : Type) where
  vt : V
  dirty_lines : Finset Nat
  cursor_changed : Bool
  resized : Bool

/-- `AvtState::new(cols, rows)`: fresh engine, rows `0..rows` dirty,
cursor changed, not resized. -/
def AvtState.new (E : VtEngine V) (cols rows : Nat) : AvtState V :=
  { vt := E.build cols rows
    dirty_lines := Finset.range rows
    cursor_changed := true
    resized := false }

/-- `AvtState::reset(cols, rows)`: rebuild the engine, rows `0..rows`
dirty, cursor changed, resized. -/
def AvtState.reset (E : VtEngine V) (st : AvtState V) (cols rows : Nat) :
    AvtState V :=
  { vt := E.build cols rows
    dirty_lines := Finset.range rows
    cursor_changed := true
    resized := true }

/-- `AvtState::resize(cols, rows)`: feed the engine a resize control
sequence, rows `0..rows` dirty, cursor changed, resized. -/
def AvtState.resize (E : VtEngine V) (st : AvtState V) (cols rows : Nat) :
    AvtState V :=
  { vt := E.feed_str st.vt
      ("\x1b[8;" ++ toString rows ++ ";" ++ toString cols ++ "t")
    dirty_lines := Finset.range rows
    cursor_changed := true
    resized := true }

/-- `AvtState::feed(bytes)`: mark rows
`0 .. min(lines().count(), size().1)` dirty, feed every byte to the
engine as a `char`, set `cursor_changed`. -/
def AvtState.feed (E : VtEngine V) (st : AvtState V) (bytes : List Nat) :
    AvtState V :=
  let bound := min (E.lines st.vt).length (E.size st.vt).2
  { vt := bytes.foldl (fun v b => E.feed v (Char.ofNat b)) st.vt
    dirty_lines :=
      (List.range bound).foldl (fun s row => insert row s) st.dirty_lines
    cursor_changed := true
    resized := st.resized }

/-- `AvtState::poll_diff()`: `None` when nothing is pending; otherwise the
diff buffer (`1`, dirty count, sorted dirty indices as varints, cursor
flag, resize flag) together with the cleared state. -/
def AvtState.poll_diff (st : AvtState V) : Option (List Nat) × AvtState V :=
  if st.dirty_lines = ∅ ∧ st.cursor_changed = false ∧ st.resized = false then
    (none, st)
  else
    let buf : List Nat := [1]
    let buf := write_varint buf st.dirty_lines.card
    let sorted := st.dirty_lines.sort (· ≤ ·)
    let buf := sorted.foldl write_varint buf
    let buf := buf ++ [if st.cursor_changed then 1 else 0]
    let buf := buf ++ [if st.resized then 1 else 0]
    (some buf,
     { st with dirty_lines := ∅, cursor_changed := false, resized := false })

/-- `AvtState::encode_snapshot()`: size, cursor, visibility byte, then
every visible line (`lines().take(size.1)`) run-encoded. -/
def AvtState.encode_snapshot (E : VtEngine V) (st : AvtState V) :
    List Nat :=
  let size := E.size st.vt
  let buf : List Nat := []
  let buf := write_varint buf size.1
  let buf := write_varint buf size.2
  let cursor := E.cursor st.vt
  let buf := write_varint buf cursor.col
  let buf := write_varint buf cursor.row
  let buf := buf ++ [if cursor.visible then 1 else 0]
  ((E.lines st.vt).take size.2).foldl encode_line buf

/-! ## Diff wire format and its decoder -/

/-- The decoded contents of a present diff payload (spec section 6). -/
structure DiffData where
  dirtyRowCount : Nat
  dirtyRows : List Nat
  cursorChanged : Bool
  resized : Bool
deriving DecidableEq, Repr

/-- Modelled from the spec: read one `u8(0|1)` flag byte. -/
def decodeFlag : List Nat → Option (Bool × List Nat)
  | 0 :: rest => some (false, rest)
  | 1 :: rest => some (true, rest)
  | _ => none

/-- Modelled from the spec: read `k` consecutive varints. -/
def decodeVarints : Nat → List Nat → Option (List Nat × List Nat)
  | 0, bs => some ([], bs)
  | k + 1, bs =>
    match decodeVarint bs with
    | none => none
    | some (n, rest) =>
      match decodeVarints k rest with
      | none => none
      | some (ns, rem) => some (n :: ns, rem)

/-- Modelled from the spec: the diff payload decoder (`hasDiff`,
`dirtyRowCount`, the dirty row indices, `cursorChanged`, `resized`),
requiring the payload to be consumed exactly. -/
def decodeDiff (bs : List Nat) : Option DiffData :=
  match bs with
  | 1 :: rest =>
    match decodeVarint rest with
    | none => none
    | some (count, rest) =>
      match decodeVarints count rest with
      | none => none
      | some (rows, rest) =>
        match decodeFlag rest with
        | none => none
        | some (cc, rest) =>
          match decodeFlag rest with
          | none => none
          | some (rz, rest) =>
            match rest with
            | [] => some ⟨count, rows, cc, rz⟩
            | _ => none
  | _ => none

lemma decodeFlag_bool (b : Bool) (rest : List Nat) :
    decodeFlag ((if b then 1 else 0) :: rest) = some (b, rest) := by
  cases b <;> rfl

lemma foldl_write_varint (xs : List Nat) (buf : List Nat) :
    xs.foldl write_varint buf = buf ++ xs.flatMap varintBytes := by
  induction xs generalizing buf with
  | nil => simp
  | cons x xs ih =>
    simp only [List.foldl_cons, List.flatMap_cons]
    rw [write_varint_eq_append, ih, List.append_assoc]

lemma decodeVarints_flatMap (xs : List Nat) (rest : List Nat) :
    decodeVarints xs.length (xs.flatMap varintBytes ++ rest) =
      some (xs, rest) := by
  induction xs generalizing rest with
  | nil => simp [decodeVarints]
  | cons x xs ih =>
    simp only [List.length_cons, List.flatMap_cons, List.append_assoc,
      decodeVarints, decodeVarint_varintBytes, ih]

/-- The exact bytes of a present diff, and their decoding. -/
lemma decodeDiff_bytes (xs : List Nat) (cc rz : Bool) :
    decodeDiff (1 :: (varintBytes xs.length ++ (xs.flatMap varintBytes ++
        [if cc then 1 else 0, if rz then 1 else 0]))) =
      some ⟨xs.length, xs, cc, rz⟩ := by
  have h1 : decodeVarints xs.length (xs.flatMap varintBytes ++
      [if cc then 1 else 0, if rz then 1 else 0]) =
      some (xs, [if cc then 1 else 0, if rz then 1 else 0]) :=
    decodeVarints_flatMap xs _
  simp [decodeDiff, decodeVarint_varintBytes, h1, decodeFlag_bool]

/-- What `poll_diff` returns when something is pending: the diff bytes and
the fully cleared state. -/
lemma poll_diff_pending (st : AvtState V)
    (h : ¬(st.dirty_lines = ∅ ∧ st.cursor_changed = false ∧
        st.resized = false)) :
    AvtState.poll_diff st =
      (some (1 :: (varintBytes st.dirty_lines.card ++
        ((st.dirty_lines.sort (· ≤ ·)).flatMap varintBytes ++
          [if st.cursor_changed then 1 else 0,
           if st.resized then 1 else 0]))),
       { st with dirty_lines := ∅, cursor_changed := false, resized := false }) := by
  unfold AvtState.poll_diff
  rw [if_neg h]
  simp only [write_varint_eq_append, foldl_write_varint]
  simp [List.append_assoc]

/-- Decoding the pending diff payload recovers count, sorted indices and
both flags. -/
lemma decodeDiff_poll (st : AvtState V)
    (h : ¬(st.dirty_lines = ∅ ∧ st.cursor_changed = false ∧
        st.resized = false)) :
    ∃ buf, (AvtState.poll_diff st).1 = some buf ∧
      decodeDiff buf = some ⟨st.dirty_lines.card,
        st.dirty_lines.sort (· ≤ ·), st.cursor_changed, st.resized⟩ := by
  rw [poll_diff_pending st h]
  refine ⟨_, rfl, ?_⟩
  rw [show st.dirty_lines.card =
    (st.dirty_lines.sort (· ≤ ·)).length from
    (Finset.length_sort _).symm]
  exact decodeDiff_bytes _ _ _

/-! ## Snapshot wire format and its decoder -/

/-- One decoded run: start column, text code points, pen. -/
structure RunData where
  start_column : Nat
  text : List Nat
  pen : Pen
deriving DecidableEq, Repr

/-- The decoded view of an emitted run (text as code points). -/
def runData (r : Run) : RunData :=
  ⟨r.start_column, r.text.map Char.toNat, r.pen⟩

/-- The bytes `encode_line` emits for one run. -/
def runBytes (r : Run) : List Nat :=
  varintBytes r.start_column ++ varintBytes (textBytes r.text).length ++
    colorBytes r.pen.foreground ++ colorBytes r.pen.background ++
    [attrByte r.pen] ++ textBytes r.text

/-- The bytes `encode_line` emits for one row: run count then runs. -/
def lineBytes (line : Line) : List Nat :=
  varintBytes (build_runs line.cells).length ++
    (build_runs line.cells).flatMap runBytes

lemma foldl_encodeRun (rs : List Run) (buf : List Nat) :
    rs.foldl (fun buf r =>
      encode_pen (write_varint (write_varint buf r.start_column)
        (textBytes r.text).length) r.pen ++ textBytes r.text) buf =
      buf ++ rs.flatMap runBytes := by
  induction rs generalizing buf with
  | nil => simp
  | cons r rs ih =>
    simp only [List.foldl_cons, List.flatMap_cons]
    rw [ih, write_varint_eq_append, write_varint_eq_append,
      encode_pen_eq_append]
    simp [runBytes, List.append_assoc]

/-- `encode_line` appends exactly the row's wire bytes. -/
lemma encode_line_eq_append (buf : List Nat) (line : Line) :
    encode_line buf line = buf ++ lineBytes line := by
  simp only [encode_line]
  rw [foldl_encodeRun, write_varint_eq_append]
  simp [lineBytes, List.append_assoc]

/-- Modelled from the spec: companion decoder for one run
(`startColumn`, `textByteLength`, pen, `textBytes[textByteLength]`). -/
def decodeRun (bs : List Nat) : Option (RunData × List Nat) :=
  match decodeVarint bs with
  | none => none
  | some (start, bs₁) =>
    match decodeVarint bs₁ with
    | none => none
    | some (len, bs₂) =>
      match decodePen bs₂ with
      | none => none
      | some (pen, bs₃) =>
        if len ≤ bs₃.length then
          match decodeUtf8 (bs₃.take len) with
          | none => none
          | some cps => some (⟨start, cps, pen⟩, bs₃.drop len)
        else none

/-- Modelled from the spec: read `k` consecutive runs. -/
def decodeRuns : Nat → List Nat → Option (List RunData × List Nat)
  | 0, bs => some ([], bs)
  | k + 1, bs =>
    match decodeRun bs with
    | none => none
    | some (r, rest) =>
      match decodeRuns k rest with
      | none => none
      | some (rs, rem) => some (r :: rs, rem)

/-- Modelled from the spec: one self-delimited row block
(`runCount` then the runs). -/
def decodeLine (bs : List Nat) : Option (List RunData × List Nat) :=
  match decodeVarint bs with
  | none => none
  | some (count, rest) => decodeRuns count rest

/-- Modelled from the spec: read `k` consecutive row blocks. -/
def decodeRows : Nat → List Nat → Option (List (List RunData) × List Nat)
  | 0, bs => some ([], bs)
  | k + 1, bs =>
    match decodeLine bs with
    | none => none
    | some (row, rest) =>
      match decodeRows k rest with
      | none => none
      | some (rows, rem) => some (row :: rows, rem)

/-- The decoded contents of a snapshot buffer (spec section 6). -/
structure SnapshotData where
  columns : Nat
  rows : Nat
  cursorCol : Nat
  cursorRow : Nat
  cursorVisible : Bool
  rowRuns : List (List RunData)
deriving DecidableEq, Repr

/-- Modelled from the spec: the snapshot decoder (`columns`, `rows`,
cursor position, visibility flag, then one row block per row index in
`[0, rows)`), requiring the buffer to be consumed exactly. -/
def decodeSnapshot (bs : List Nat) : Option SnapshotData :=
  match decodeVarint bs with
  | none => none
  | some (cols, bs) =>
    match decodeVarint bs with
    | none => none
    | some (rows, bs) =>
      match decodeVarint bs with
      | none => none
      | some (ccol, bs) =>
        match decodeVarint bs with
        | none => none
        | some (crow, bs) =>
          match decodeFlag bs with
          | none => none
          | some (vis, bs) =>
            match decodeRows rows bs with
            | none => none
            | some (rowRuns, rest) =>
              match rest with
              | [] => some ⟨cols, rows, ccol, crow, vis, rowRuns⟩
              | _ => none

/-- Decoding one emitted run's bytes recovers the run and the suffix. -/
lemma decodeRun_runBytes (r : Run) (rest : List Nat) :
    decodeRun (runBytes r ++ rest) = some (runData r, rest) := by
  have hsplit : runBytes r ++ rest =
      varintBytes r.start_column ++ (varintBytes (textBytes r.text).length
        ++ (colorBytes r.pen.foreground ++ (colorBytes r.pen.background ++
          (attrByte r.pen :: (textBytes r.text ++ rest))))) := by
    simp [runBytes, List.append_assoc]
  rw [hsplit]
  simp only [decodeRun, decodeVarint_varintBytes, decodePen_encode_pen]
  rw [if_pos (by simp)]
  rw [List.take_left, List.drop_left, decodeUtf8_textBytes]
  rfl

/-- Decoding `k` emitted runs recovers them all. -/
lemma decodeRuns_flatMap (rs : List Run) (rest : List Nat) :
    decodeRuns rs.length (rs.flatMap runBytes ++ rest) =
      some (rs.map runData, rest) := by
  induction rs generalizing rest with
  | nil => simp [decodeRuns]
  | cons r rs ih =>
    simp only [List.length_cons, List.flatMap_cons, List.append_assoc,
      decodeRuns, decodeRun_runBytes, ih]
    simp

/-- Decoding one emitted row block recovers the row's runs. -/
lemma decodeLine_lineBytes (line : Line) (rest : List Nat) :
    decodeLine (lineBytes line ++ rest) =
      some ((build_runs line.cells).map runData, rest) := by
  simp only [lineBytes, List.append_assoc, decodeLine,
    decodeVarint_varintBytes, decodeRuns_flatMap]

/-- Decoding the emitted row blocks of a line list recovers every row. -/
lemma decodeRows_flatMap (ls : List Line) (rest : List Nat) :
    decodeRows ls.length (ls.flatMap lineBytes ++ rest) =
      some (ls.map (fun l => (build_runs l.cells).map runData), rest) := by
  induction ls generalizing rest with
  | nil => simp [decodeRows]
  | cons l ls ih =>
    simp only [List.length_cons, List.flatMap_cons, List.append_assoc,
      decodeRows, decodeLine_lineBytes, ih]
    simp

lemma foldl_encode_line (ls : List Line) (buf : List Nat) :
    ls.foldl encode_line buf = buf ++ ls.flatMap lineBytes := by
  induction ls generalizing buf with
  | nil => simp
  | cons l ls ih =>
    simp only [List.foldl_cons, List.flatMap_cons]
    rw [encode_line_eq_append, ih, List.append_assoc]

/-- The exact bytes `encode_snapshot` produces. -/
lemma encode_snapshot_eq (E : VtEngine V) (st : AvtState V) :
    AvtState.encode_snapshot E st =
      varintBytes (E.size st.vt).1 ++ (varintBytes (E.size st.vt).2 ++
        (varintBytes (E.cursor st.vt).col ++
          (varintBytes (E.cursor st.vt).row ++
            ((if (E.cursor st.vt).visible then 1 else 0) ::
              ((E.lines st.vt).take (E.size st.vt).2).flatMap
                lineBytes)))) := by
  simp only [AvtState.encode_snapshot]
  rw [foldl_encode_line, write_varint_eq_append, write_varint_eq_append,
    write_varint_eq_append, write_varint_eq_append]
  simp [List.append_assoc]

/-- Decoding an emitted snapshot recovers geometry, cursor and every
visible row's runs, provided the engine reports at least `rows` lines. -/
lemma decodeSnapshot_encode (E : VtEngine V) (st : AvtState V)
    (h : (E.size st.vt).2 ≤ (E.lines st.vt).length) :
    decodeSnapshot (AvtState.encode_snapshot E st) =
      some ⟨(E.size st.vt).1, (E.size st.vt).2, (E.cursor st.vt).col,
        (E.cursor st.vt).row, (E.cursor st.vt).visible,
        ((E.lines st.vt).take (E.size st.vt).2).map
          (fun l => (build_runs l.cells).map runData)⟩ := by
  rw [encode_snapshot_eq]
  have hlen : ((E.lines st.vt).take (E.size st.vt).2).length =
      (E.size st.vt).2 := List.length_take_of_le h
  have hrows := decodeRows_flatMap ((E.lines st.vt).take (E.size st.vt).2)
    ([] : List Nat)
  rw [hlen, List.append_nil] at hrows
  simp only [decodeSnapshot, decodeVarint_varintBytes, decodeFlag_bool,
    hrows]

/-! ## Feed characterization and a concrete engine for instantiation -/

lemma foldl_insert_range (n : Nat) (s : Finset Nat) :
    (List.range n).foldl (fun s row => insert row s) s =
      s ∪ Finset.range n := by
  induction n generalizing s with
  | zero => simp
  | succ n ih =>
    rw [List.range_succ, List.foldl_append]
    simp only [List.foldl_cons, List.foldl_nil]
    rw [ih, ← Finset.union_insert, ← Finset.range_succ]

/-- What one `feed` call does to the tracker state. -/
lemma feed_spec (E : VtEngine V) (st : AvtState V) (bytes : List Nat) :
    (AvtState.feed E st bytes).dirty_lines =
      st.dirty_lines ∪
        Finset.range (min (E.lines st.vt).length (E.size st.vt).2) ∧
    (AvtState.feed E st bytes).cursor_changed = true ∧
    (AvtState.feed E st bytes).resized = st.resized ∧
    (AvtState.feed E st bytes).vt =
      bytes.foldl (fun v b => E.feed v (Char.ofNat b)) st.vt := by
  refine ⟨?_, rfl, rfl, rfl⟩
  simp only [AvtState.feed]
  exact foldl_insert_range _ _

/-- Any state whose cursor flag is set produces a present diff whose
payload decodes to the pending counts, indices and flags. -/
lemma poll_after_cursor_changed (st : AvtState V)
    (hcc : st.cursor_changed = true) :
    ∃ buf, (AvtState.poll_diff st).1 = some buf ∧
      decodeDiff buf = some ⟨st.dirty_lines.card,
        st.dirty_lines.sort (· ≤ ·), true, st.resized⟩ := by
  have hcond : ¬(st.dirty_lines = ∅ ∧ st.cursor_changed = false ∧
      st.resized = false) := by
    simp [hcc]
  obtain ⟨buf, h1, h2⟩ := decodeDiff_poll st hcond
  rw [hcc] at h2
  exact ⟨buf, h1, h2⟩

/-- A concrete engine instance used to run the theorems on explicit
inputs: a record storing the observations the interface exposes, with a
blank screen of the requested geometry on build and inert feeds. -/
structure FixedVt where
  cols : Nat
  rows : Nat
  vlines : List Line
  vcursor : Cursor
deriving DecidableEq, Repr

/-- The `VtEngine` structure over `FixedVt`. -/
def fixedEngine : VtEngine FixedVt where
  build c r :=
    ⟨c, r, (List.range r).map (fun _ => ⟨List.replicate c ⟨' ', default⟩⟩),
      ⟨0, 0, true⟩⟩
  feed v _ := v
  feed_str v _ := v
  lines v := v.vlines
  cursor v := v.vcursor
  size v := (v.cols, v.rows)

/-! ## The JNI handle guard -/

/-- The only handle validation each JNI entry point of `lib.rs` performs
before dereferencing the handle as a raw pointer (`if handle == 0 then
return`, lines 227, 244, 262, 279, 300, 320): there is no registry and no
liveness check, so any nonzero value — including a freed handle — passes. -/
def handleRejected (handle : Int) : Bool := handle == 0

lemma varintBytes_small (n : Nat) (h : n < 128) : varintBytes n = [n] := by
  rw [varintBytes_eq, if_pos (by omega)]
  congr 1
  omega

/-- Whatever the diff decoder accepts starts with the byte `hasDiff = 1`. -/
lemma decodeDiff_head (bs : List Nat) (d : DiffData)
    (h : decodeDiff bs = some d) : bs.head? = some 1 := by
  cases bs with
  | nil => simp [decodeDiff] at h
  | cons b rest =>
    rcases b with _ | b
    · simp [decodeDiff] at h
    · rcases b with _ | b
      · rfl
      · simp [decodeDiff] at h

/-! ## The claims -/

/-- C1: for every session freshly created by `open(c, r)`
(`AvtState::new`), the first `poll_diff` returns a present diff whose
payload decodes to `hasDiff = 1`, `dirtyRowCount = r`, the dirty row
indices `0, 1, ..., r-1` in ascending order with no duplicates,
`cursorChanged = 1` and `resized = 0`. -/
theorem C1_first_poll_after_open (V : Type) (E : VtEngine V) (c r : Nat) :
    ∃ buf, (AvtState.poll_diff (AvtState.new E c r)).1 = some buf ∧
      buf.head? = some 1 ∧
      decodeDiff buf = some ⟨r, List.range r, true, false⟩ ∧
      List.Chain' (· < ·) (List.range r) ∧ (List.range r).Nodup := by
  have hcc : (AvtState.new E c r).cursor_changed = true := rfl
  obtain ⟨buf, h1, h2⟩ := poll_after_cursor_changed _ hcc
  have h3 : decodeDiff buf = some ⟨r, List.range r, true, false⟩ := by
    rw [h2]
    simp [AvtState.new, Finset.sort_range]
  exact ⟨buf, h1, decodeDiff_head buf _ h3, h3,
    List.chain'_iff_pairwise.mpr (List.pairwise_lt_range r),
    List.nodup_range r⟩

/-- C2: every `poll_diff` that returns a present diff leaves all three
dirty-state fields cleared (`dirty_rows` empty, `cursor_changed` false,
`resized` false) in the state it returns, so a second `poll_diff` with no
intervening mutation returns absent: no consumed change is reported
twice. -/
theorem C2_poll_clears_state (V : Type) (st : AvtState V) (buf : List Nat)
    (h : (AvtState.poll_diff st).1 = some buf) :
    (AvtState.poll_diff st).2.dirty_lines = ∅ ∧
    (AvtState.poll_diff st).2.cursor_changed = false ∧
    (AvtState.poll_diff st).2.resized = false ∧
    (AvtState.poll_diff (AvtState.poll_diff st).2).1 = none := by
  by_cases hcond : st.dirty_lines = ∅ ∧ st.cursor_changed = false ∧
      st.resized = false
  · unfold AvtState.poll_diff at h
    rw [if_pos hcond] at h
    simp at h
  · have hp := poll_diff_pending st hcond
    rw [hp]
    refine ⟨rfl, rfl, rfl, ?_⟩
    unfold AvtState.poll_diff
    rw [if_pos ⟨rfl, rfl, rfl⟩]

theorem C2_witness :
    (AvtState.poll_diff (⟨(), {0}, true, false⟩ : AvtState Unit)).1 =
      some [1, 1, 0, 1, 0] ∧
    ((AvtState.poll_diff (⟨(), {0}, true, false⟩ : AvtState Unit)).2.dirty_lines = ∅ ∧
     (AvtState.poll_diff (⟨(), {0}, true, false⟩ : AvtState Unit)).2.cursor_changed = false ∧
     (AvtState.poll_diff (⟨(), {0}, true, false⟩ : AvtState Unit)).2.resized = false ∧
     (AvtState.poll_diff
       (AvtState.poll_diff (⟨(), {0}, true, false⟩ : AvtState Unit)).2).1 = none) := by
  have hpoll : (AvtState.poll_diff
      (⟨(), {0}, true, false⟩ : AvtState Unit)).1 = some [1, 1, 0, 1, 0] := by
    rw [poll_diff_pending _ (by simp)]
    norm_num [Finset.sort_singleton, varintBytes_small]
  exact ⟨hpoll, C2_poll_clears_state Unit _ [1, 1, 0, 1, 0] hpoll⟩

/-- C3: for every row of cells, concatenating the text of the emitted runs
in order yields the row's characters; no two adjacent runs share a pen;
start columns are strictly increasing; an empty row yields zero runs; a
row whose cells all share one pen yields exactly one run with the whole
row's text starting at column 0. -/
theorem C3_run_encoder (cells : List Cell) :
    ((build_runs cells).map Run.text).flatten = cells.map Cell.char ∧
    (build_runs cells).Chain' (fun a b => a.pen ≠ b.pen) ∧
    (build_runs cells).Chain' (fun a b => a.start_column < b.start_column) ∧
    build_runs [] = ([] : List Run) ∧
    (∀ p : Pen, cells ≠ [] → (∀ c ∈ cells, c.pen = p) →
      build_runs cells = [⟨0, cells.map Cell.char, p⟩]) :=
  ⟨build_runs_text cells, build_runs_chain_pen cells,
   build_runs_chain_start cells, rfl,
   fun p hne hall => build_runs_uniform p cells hne hall⟩

theorem C3_witness :
    ([⟨'a', default⟩, ⟨'b', default⟩] : List Cell) ≠ [] ∧
    (∀ c ∈ ([⟨'a', default⟩, ⟨'b', default⟩] : List Cell), c.pen = default) ∧
    build_runs [⟨'a', default⟩, ⟨'b', default⟩] =
      [⟨0, ['a', 'b'], default⟩] :=
  ⟨by decide, by decide,
   (C3_run_encoder [⟨'a', default⟩, ⟨'b', default⟩]).2.2.2.2 default
     (by decide) (by decide)⟩

/-- C4: `write_varint` appends the little-endian base-128 bytes of `n`;
decoding them (with any suffix) recovers `n` and the suffix, for every
`n : Nat` (hence for every `usize`); the encoding is minimal: no byte
string the decoder accepts for `n` is shorter, and `0` encodes as the
single byte `0x00`. -/
theorem C4_varint_roundtrip_minimal (buf : List Nat) (n : Nat)
    (suffix bs : List Nat) (hbs : decodeVarint bs = some (n, [])) :
    write_varint buf n = buf ++ varintBytes n ∧
    decodeVarint (varintBytes n ++ suffix) = some (n, suffix) ∧
    (varintBytes n).length ≤ bs.length ∧
    varintBytes 0 = [0] := by
  refine ⟨write_varint_eq_append buf n, decodeVarint_varintBytes n suffix,
    ?_, by rw [varintBytes_eq]; norm_num⟩
  have := varintBytes_length_minimal bs n [] hbs
  simpa using this

theorem C4_witness :
    decodeVarint [172, 2] = some (300, []) ∧
    (write_varint [] 300 = [] ++ varintBytes 300 ∧
     decodeVarint (varintBytes 300 ++ []) = some (300, []) ∧
     (varintBytes 300).length ≤ ([172, 2] : List Nat).length ∧
     varintBytes 0 = [0]) :=
  ⟨by decide, C4_varint_roundtrip_minimal [] 300 [] [172, 2] (by decide)⟩

/-- C5: a snapshot encodes columns, rows, cursor column, cursor row, the
visibility byte and one self-delimited block per visible row, so decoding
recovers the exact geometry, cursor and per-row runs (whose texts
reconstruct each row's characters) at capture time — provided the engine
reports at least `rows` lines, as the `avt` engine does for its visible
window. -/
theorem C5_snapshot_roundtrip (V : Type) (E : VtEngine V)
    (st : AvtState V)
    (h : (E.size st.vt).2 ≤ (E.lines st.vt).length) :
    decodeSnapshot (AvtState.encode_snapshot E st) =
      some ⟨(E.size st.vt).1, (E.size st.vt).2, (E.cursor st.vt).col,
        (E.cursor st.vt).row, (E.cursor st.vt).visible,
        ((E.lines st.vt).take (E.size st.vt).2).map
          (fun l => (build_runs l.cells).map runData)⟩ ∧
    (((E.lines st.vt).take (E.size st.vt).2).map
        (fun l => (build_runs l.cells).map runData)).length =
      (E.size st.vt).2 ∧
    ∀ l ∈ (E.lines st.vt).take (E.size st.vt).2,
      ((build_runs l.cells).map Run.text).flatten = l.cells.map Cell.char := by
  refine ⟨decodeSnapshot_encode E st h, ?_, ?_⟩
  · rw [List.length_map]
    exact List.length_take_of_le h
  · intro l _
    exact build_runs_text l.cells

theorem C5_witness :
    (fixedEngine.size (AvtState.new fixedEngine 1 1).vt).2 ≤
      (fixedEngine.lines (AvtState.new fixedEngine 1 1).vt).length ∧
    decodeSnapshot (AvtState.encode_snapshot fixedEngine
      (AvtState.new fixedEngine 1 1)) ≠ none := by
  refine ⟨by decide, ?_⟩
  have h := C5_snapshot_roundtrip FixedVt fixedEngine
    (AvtState.new fixedEngine 1 1) (by decide)
  rw [h.1]
  simp

/-- C6: `feed` with non-empty bytes marks every previously visible row
(bounded by `min(lines().count(), size().1)`) dirty and sets
`cursor_changed` unconditionally, so the next `poll_diff` is present and
decodes with `cursorChanged = 1` and with all those rows among its dirty
indices (along with whatever was already pending). -/
theorem C6_feed_marks_visible_rows (V : Type) (E : VtEngine V)
    (st : AvtState V) (bytes : List Nat) (hb : bytes ≠ []) :
    (AvtState.feed E st bytes).cursor_changed = true ∧
    (AvtState.feed E st bytes).dirty_lines = st.dirty_lines ∪
      Finset.range (min (E.lines st.vt).length (E.size st.vt).2) ∧
    ∃ buf, (AvtState.poll_diff (AvtState.feed E st bytes)).1 = some buf ∧
      ∃ d, decodeDiff buf = some d ∧ d.cursorChanged = true ∧
        (∀ i ∈ st.dirty_lines, i ∈ d.dirtyRows) ∧
        ∀ i < min (E.lines st.vt).length (E.size st.vt).2,
          i ∈ d.dirtyRows := by
  obtain ⟨hdirty, hcc, hrz, hvt⟩ := feed_spec E st bytes
  refine ⟨hcc, hdirty, ?_⟩
  obtain ⟨buf, h1, h2⟩ :=
    poll_after_cursor_changed (AvtState.feed E st bytes) hcc
  refine ⟨buf, h1, _, h2, rfl, ?_, ?_⟩
  · intro i hi
    show i ∈ (AvtState.feed E st bytes).dirty_lines.sort (· ≤ ·)
    rw [Finset.mem_sort, hdirty]
    exact Finset.mem_union_left _ hi
  · intro i hib
    show i ∈ (AvtState.feed E st bytes).dirty_lines.sort (· ≤ ·)
    rw [Finset.mem_sort, hdirty]
    exact Finset.mem_union_right _ (Finset.mem_range.mpr hib)

theorem C6_witness :
    ([65] : List Nat) ≠ [] ∧
    (AvtState.feed fixedEngine (AvtState.new fixedEngine 1 1)
      [65]).cursor_changed = true :=
  ⟨by decide,
   (C6_feed_marks_visible_rows FixedVt fixedEngine
     (AvtState.new fixedEngine 1 1) [65] (by decide)).1⟩

/-- C7: the pen encoder is total and injective: it emits the foreground
color (tag 0 plus index byte, tag 1 plus three components, or tag 2
alone), then the background color likewise, then one attribute byte with
bit 0 bold, bit 1 italic, bit 2 underline, bit 3 strikethrough, bit 4
blink, bit 5 inverse and bits 6-7 zero; distinct pens give distinct byte
sequences. -/
theorem C7_pen_codec (buf : List Nat) (p q : Pen) :
    encode_pen buf p = buf ++ colorBytes p.foreground ++
      colorBytes p.background ++ [attrByte p] ∧
    attrByte p = (if p.is_bold then 1 else 0) +
      (if p.is_italic then 2 else 0) + (if p.is_underline then 4 else 0) +
      (if p.is_strikethrough then 8 else 0) +
      (if p.is_blink then 16 else 0) + (if p.is_inverse then 32 else 0) ∧
    attrByte p < 64 ∧
    (encode_pen buf p = encode_pen buf q → p = q) :=
  ⟨encode_pen_eq_append buf p, attrByte_eq_sum p, attrByte_lt_64 p,
   encode_pen_injective buf p q⟩

theorem C7_witness :
    encode_pen [] default = encode_pen [] default ∧
    (default : Pen) = default :=
  ⟨rfl, (C7_pen_codec [] default default).2.2.2 rfl⟩

/-- C8: the code evaluated at the failing input. Handle `0` is rejected by
the guard each JNI entry point runs, but a nonzero freed handle passes it,
after which the entry point dereferences the freed pointer — not the
silent no-op / empty result the claim promises for a closed handle. -/
theorem C8_guard_only_checks_zero :
    handleRejected 0 = true ∧ handleRejected 42 = false :=
  ⟨rfl, rfl⟩

/-- C9 as claimed is false: after `reset(2, 2)` on a live session the next
`poll_diff` decodes with `resized = 1`, not the claimed `resized = 0`
(`AvtState::reset` sets `self.resized = true`, unlike `AvtState::new`). -/
theorem C9_counterexample :
    ∃ buf, (AvtState.poll_diff (AvtState.reset fixedEngine
        (AvtState.new fixedEngine 2 2) 2 2)).1 = some buf ∧
      (decodeDiff buf).map DiffData.resized = some true ∧
      (decodeDiff buf).map DiffData.resized ≠ some false := by
  obtain ⟨buf, h1, h2⟩ := poll_after_cursor_changed
    (AvtState.reset fixedEngine (AvtState.new fixedEngine 2 2) 2 2) rfl
  refine ⟨buf, h1, ?_, ?_⟩ <;> rw [h2] <;> simp [AvtState.reset]

/-- C9 amended: after `reset(cols, rows)` the tracker is marked as though
freshly opened except for the resize flag: the next `poll_diff` decodes to
exactly `rows` dirty rows `0..rows-1`, `cursorChanged = 1` and
`resized = 1` (where the first poll after `open` has `resized = 0`). -/
theorem C9_reset_fresh_tracker (V : Type) (E : VtEngine V)
    (st : AvtState V) (cols rows : Nat) :
    ∃ buf, (AvtState.poll_diff (AvtState.reset E st cols rows)).1 =
        some buf ∧
      decodeDiff buf = some ⟨rows, List.range rows, true, true⟩ := by
  obtain ⟨buf, h1, h2⟩ := poll_after_cursor_changed
    (AvtState.reset E st cols rows) rfl
  refine ⟨buf, h1, ?_⟩
  rw [h2]
  simp [AvtState.reset, Finset.sort_range]

/-- C10: `feed` with an empty byte array still marks every currently
visible row dirty and sets `cursor_changed`, so the next `poll_diff` is
present and decodes with `cursorChanged = 1`, while no byte reaches the
engine (the `vt` field is unchanged). -/
theorem C10_empty_feed_marks_dirty (V : Type) (E : VtEngine V)
    (st : AvtState V) :
    (AvtState.feed E st []).vt = st.vt ∧
    (AvtState.feed E st []).cursor_changed = true ∧
    (AvtState.feed E st []).dirty_lines = st.dirty_lines ∪
      Finset.range (min (E.lines st.vt).length (E.size st.vt).2) ∧
    ∃ buf, (AvtState.poll_diff (AvtState.feed E st [])).1 = some buf ∧
      ∃ d, decodeDiff buf = some d ∧ d.cursorChanged = true := by
  obtain ⟨hdirty, hcc, hrz, hvt⟩ := feed_spec E st []
  refine ⟨by simpa using hvt, hcc, hdirty, ?_⟩
  obtain ⟨buf, h1, h2⟩ := poll_after_cursor_changed _ hcc
  exact ⟨buf, h1, _, h2, rfl⟩

end VtAvt
